import Mathlib

/-!
Verification of the partition geometry of `split.py`.

The source computes with Python floats; we embed the arithmetic over `ℚ`
and model Python's `round` (round half to even) as `pyRound`.  Crop boxes
carry four integer coordinates `(y0, y1, x0, x1)` exactly as in the source.
-/

set_option autoImplicit false

namespace SIFT

/-- Python's built-in `round`: nearest integer, ties to the even one. -/
def pyRound (q : ℚ) : ℤ :=
  if q - ⌊q⌋ < 1/2 then ⌊q⌋
  else if 1/2 < q - ⌊q⌋ then ⌊q⌋ + 1
  else if ⌊q⌋ % 2 = 0 then ⌊q⌋ else ⌊q⌋ + 1

/-- A crop box `(y0, y1, x0, x1)`, as produced by `split_image_with_overlap`. -/
structure Box where
  y0 : ℤ
  y1 : ℤ
  x0 : ℤ
  x1 : ℤ
deriving DecidableEq

/-- `choose_num_parts` from the source: threshold table on the longest dimension. -/
def choose_num_parts (long_dim : ℤ) : ℤ :=
  if 5000 ≤ long_dim then 5
  else if 3500 ≤ long_dim then 4
  else if 2200 ≤ long_dim then 3
  else if 1000 ≤ long_dim then 2
  else 2

/-- The extent along the split axis: `total = w` when `axis == 1`, else `h`. -/
def totalOf (h w : ℤ) (axis : ℤ) : ℤ :=
  if axis = 1 then w else h

/-- `part_nominal = total / num_parts` (real-valued division in the source). -/
def part_nominal (total : ℤ) (np : ℕ) : ℚ :=
  (total : ℚ) / (np : ℚ)

/-- `step = int(round(part_nominal * (1 - overlap_frac)))`, floored to 1. -/
def stepOf (total : ℤ) (np : ℕ) (f : ℚ) : ℤ :=
  let s : ℤ := pyRound (part_nominal total np * (1 - f))
  if s < 1 then 1 else s

/-- The `for i in range(num_parts)` loop of `split_image_with_overlap`:
at iteration `i` (with `fuel` iterations left and running coordinate `start`)
it emits a clamped box and advances `start` by `step`, breaking once
`start ≥ total`. -/
def splitLoop (h w total : ℤ) (pn : ℚ) (step : ℤ) (np : ℕ) (axis : ℤ) :
    ℕ → ℕ → ℤ → List Box
  | 0, _, _ => []
  | fuel + 1, i, start =>
    let e : ℤ := if i = np - 1 then total else start + pyRound pn
    let sc : ℤ := max 0 (min (total - 1) start)
    let ec : ℤ := max 1 (min total e)
    let box : Box := if axis = 1 then ⟨0, h, sc, ec⟩ else ⟨sc, ec, 0, w⟩
    if total ≤ start + step then [box]
    else box :: splitLoop h w total pn step np axis fuel (i + 1) (start + step)

/-- One box of the evenly spaced rebuild:
`[round(i * (total/num_parts)), round((i+1) * (total/num_parts)))`. -/
def fallbackBox (h w total : ℤ) (np : ℕ) (axis : ℤ) (i : ℕ) : Box :=
  let s : ℤ := pyRound ((i : ℚ) * part_nominal total np)
  let e : ℤ := pyRound (((i : ℚ) + 1) * part_nominal total np)
  if axis = 1 then ⟨0, h, s, e⟩ else ⟨s, e, 0, w⟩

/-- The rebuilt list of `num_parts` evenly spaced boxes. -/
def fallbackBoxes (h w total : ℤ) (np : ℕ) (axis : ℤ) : List Box :=
  (List.range np).map (fallbackBox h w total np axis)

/-- The final repair pass of `split_image_with_overlap`: clamp into bounds
and force a nonempty box. -/
def finalRepair (h w : ℤ) (b : Box) : Box :=
  let y0 : ℤ := max 0 (min (h - 1) b.y0)
  let y1 : ℤ := max (y0 + 1) (min h b.y1)
  let x0 : ℤ := max 0 (min (w - 1) b.x0)
  let x1 : ℤ := max (x0 + 1) (min w b.x1)
  ⟨y0, y1, x0, x1⟩

/-- `split_image_with_overlap` from the source: overlap-stride loop, the
uniform rebuild when the loop came up short, then the final repair pass. -/
def split_image_with_overlap (h w : ℤ) (np : ℕ) (f : ℚ) (axis : ℤ) : List Box :=
  let total : ℤ := totalOf h w axis
  let pn : ℚ := part_nominal total np
  let step : ℤ := stepOf total np f
  let boxes : List Box := splitLoop h w total pn step np axis np 0 0
  let boxes2 : List Box := if boxes.length < np then fallbackBoxes h w total np axis else boxes
  boxes2.map (finalRepair h w)

/-- Checked variant of `split_image_with_overlap`: the one fallible
operation of the source under its preconditions is the division by
`num_parts`, so the division is guarded and everything else is identical. -/
def split_image_checked (h w : ℤ) (np : ℕ) (f : ℚ) (axis : ℤ) : Option (List Box) :=
  if np = 0 then none
  else some (split_image_with_overlap h w np f axis)

/-- Coordinate of a box along the split axis where its range begins. -/
def bStart (axis : ℤ) (b : Box) : ℤ :=
  if axis = 1 then b.x0 else b.y0

/-- Coordinate of a box along the split axis where its range ends. -/
def bEnd (axis : ℤ) (b : Box) : ℤ :=
  if axis = 1 then b.x1 else b.y1

/-- Closed form of the box the loop emits at iteration `i`: along the split
axis it starts at `i * step` (clamped) and ends at `start + round(part_nominal)`
(clamped), with the last box forced to end at `total`. -/
def loopBox (h w total : ℤ) (pn : ℚ) (step : ℤ) (np : ℕ) (axis : ℤ) (i : ℕ) : Box :=
  let e : ℤ := if i = np - 1 then total else (i : ℤ) * step + pyRound pn
  let sc : ℤ := max 0 (min (total - 1) ((i : ℤ) * step))
  let ec : ℤ := max 1 (min total e)
  if axis = 1 then ⟨0, h, sc, ec⟩ else ⟨sc, ec, 0, w⟩

/-! ### Facts about `pyRound` -/

theorem pyRound_intCast (n : ℤ) : pyRound (n : ℚ) = n := by
  simp [pyRound]

theorem sub_half_le_pyRound (q : ℚ) : q - 1/2 ≤ (pyRound q : ℚ) := by
  have h1 : (⌊q⌋ : ℚ) ≤ q := Int.floor_le q
  have h2 : q < ⌊q⌋ + 1 := Int.lt_floor_add_one q
  unfold pyRound
  split_ifs <;> push_cast <;> linarith

theorem pyRound_le_add_half (q : ℚ) : (pyRound q : ℚ) ≤ q + 1/2 := by
  have h1 : (⌊q⌋ : ℚ) ≤ q := Int.floor_le q
  have h2 : q < ⌊q⌋ + 1 := Int.lt_floor_add_one q
  unfold pyRound
  split_ifs <;> push_cast <;> linarith

theorem floor_le_pyRound (q : ℚ) : ⌊q⌋ ≤ pyRound q := by
  unfold pyRound
  split_ifs <;> omega

theorem pyRound_le_floor_add_one (q : ℚ) : pyRound q ≤ ⌊q⌋ + 1 := by
  unfold pyRound
  split_ifs <;> omega

theorem pyRound_mono {a b : ℚ} (hab : a ≤ b) : pyRound a ≤ pyRound b := by
  rcases lt_or_le ⌊a⌋ ⌊b⌋ with hfl | hfl
  · have h1 := pyRound_le_floor_add_one a
    have h2 := floor_le_pyRound b
    omega
  · have hfl' : ⌊a⌋ = ⌊b⌋ := le_antisymm (Int.floor_le_floor hab) hfl
    unfold pyRound
    rw [hfl']
    split_ifs <;> first | omega | (exfalso; linarith)

theorem pyRound_nonneg {q : ℚ} (hq : 0 ≤ q) : 0 ≤ pyRound q := by
  have h := pyRound_mono (a := 0) (b := q) hq
  have h0 : pyRound (0 : ℚ) = 0 := by simpa using pyRound_intCast 0
  omega

theorem one_le_pyRound {q : ℚ} (hq : 1 ≤ q) : 1 ≤ pyRound q := by
  have h := pyRound_mono (a := 1) (b := q) hq
  have h1 : pyRound ((1 : ℤ) : ℚ) = 1 := pyRound_intCast 1
  simp only [Int.cast_one] at h1
  omega

/-! ### Elementary facts about the definitions -/

theorem stepOf_eq_max (total : ℤ) (np : ℕ) (f : ℚ) :
    stepOf total np f = max 1 (pyRound (part_nominal total np * (1 - f))) := by
  unfold stepOf
  dsimp only
  split_ifs <;> omega

theorem one_le_stepOf (total : ℤ) (np : ℕ) (f : ℚ) : 1 ≤ stepOf total np f := by
  rw [stepOf_eq_max]
  omega

theorem splitLoop_length_le (h w total : ℤ) (pn : ℚ) (step : ℤ) (np : ℕ) (axis : ℤ) :
    ∀ fuel i start, (splitLoop h w total pn step np axis fuel i start).length ≤ fuel := by
  intro fuel
  induction fuel with
  | zero => intro i start; simp [splitLoop]
  | succ n ih =>
    intro i start
    simp only [splitLoop]
    by_cases hc : total ≤ start + step
    · rw [if_pos hc]
      simp
    · rw [if_neg hc]
      simp only [List.length_cons]
      have := ih (i + 1) (start + step)
      omega

/-- The output always has exactly `num_parts` boxes: the loop emits at most
`num_parts` and the rebuild emits exactly `num_parts`. -/
theorem split_image_length (h w : ℤ) (np : ℕ) (f : ℚ) (axis : ℤ) :
    (split_image_with_overlap h w np f axis).length = np := by
  simp only [split_image_with_overlap, List.length_map]
  split_ifs with hlt
  · simp [fallbackBoxes]
  · have := splitLoop_length_le h w (totalOf h w axis)
      (part_nominal (totalOf h w axis) np) (stepOf (totalOf h w axis) np f) np axis np 0 0
    omega

/-- Every box the loop emits spans the full orthogonal extent. -/
theorem splitLoop_shape (h w total : ℤ) (pn : ℚ) (step : ℤ) (np : ℕ) (axis : ℤ) :
    ∀ fuel i start b, b ∈ splitLoop h w total pn step np axis fuel i start →
      ∃ s e : ℤ, b = if axis = 1 then Box.mk 0 h s e else Box.mk s e 0 w := by
  intro fuel
  induction fuel with
  | zero => intro i start b hb; simp [splitLoop] at hb
  | succ n ih =>
    intro i start b hb
    simp only [splitLoop] at hb
    by_cases hc : total ≤ start + step
    · rw [if_pos hc] at hb
      rcases List.mem_singleton.mp hb with rfl
      exact ⟨_, _, rfl⟩
    · rw [if_neg hc] at hb
      rcases List.mem_cons.mp hb with rfl | hmem
      · exact ⟨_, _, rfl⟩
      · exact ih (i + 1) (start + step) b hmem

/-- Every box of the rebuild spans the full orthogonal extent. -/
theorem fallbackBoxes_shape (h w total : ℤ) (np : ℕ) (axis : ℤ) :
    ∀ b ∈ fallbackBoxes h w total np axis,
      ∃ s e : ℤ, b = if axis = 1 then Box.mk 0 h s e else Box.mk s e 0 w := by
  intro b hb
  simp only [fallbackBoxes, List.mem_map] at hb
  obtain ⟨i, _, rfl⟩ := hb
  exact ⟨_, _, rfl⟩

/-- The repair pass always yields a valid box inside an `h × w` image. -/
theorem finalRepair_valid (h w : ℤ) (hh : 1 ≤ h) (hw : 1 ≤ w) (b : Box) :
    0 ≤ (finalRepair h w b).y0 ∧ (finalRepair h w b).y0 < (finalRepair h w b).y1 ∧
    (finalRepair h w b).y1 ≤ h ∧ 0 ≤ (finalRepair h w b).x0 ∧
    (finalRepair h w b).x0 < (finalRepair h w b).x1 ∧ (finalRepair h w b).x1 ≤ w := by
  simp only [finalRepair]
  omega

theorem bStart_finalRepair (h w axis : ℤ) (b : Box) :
    bStart axis (finalRepair h w b)
      = max 0 (min (totalOf h w axis - 1) (bStart axis b)) := by
  by_cases ha : axis = 1 <;> simp [bStart, finalRepair, totalOf, ha]

theorem bEnd_finalRepair (h w axis : ℤ) (b : Box) :
    bEnd axis (finalRepair h w b)
      = max (max 0 (min (totalOf h w axis - 1) (bStart axis b)) + 1)
          (min (totalOf h w axis) (bEnd axis b)) := by
  by_cases ha : axis = 1 <;> simp [bStart, bEnd, finalRepair, totalOf, ha]

/-- Along the split axis, every repaired box is a nonempty subrange of
`[0, total]` whose start lies in `[0, total - 1]`. -/
theorem finalRepair_split_bounds (h w axis : ℤ) (b : Box)
    (ht : 1 ≤ totalOf h w axis) :
    0 ≤ bStart axis (finalRepair h w b) ∧
    bStart axis (finalRepair h w b) ≤ totalOf h w axis - 1 ∧
    bStart axis (finalRepair h w b) < bEnd axis (finalRepair h w b) ∧
    bEnd axis (finalRepair h w b) ≤ totalOf h w axis := by
  rw [bStart_finalRepair, bEnd_finalRepair]
  omega

theorem bStart_loopBox (h w total : ℤ) (pn : ℚ) (step : ℤ) (np : ℕ) (axis : ℤ) (i : ℕ) :
    bStart axis (loopBox h w total pn step np axis i)
      = max 0 (min (total - 1) ((i : ℤ) * step)) := by
  by_cases ha : axis = 1 <;> simp [bStart, loopBox, ha]

theorem bEnd_loopBox (h w total : ℤ) (pn : ℚ) (step : ℤ) (np : ℕ) (axis : ℤ) (i : ℕ) :
    bEnd axis (loopBox h w total pn step np axis i)
      = max 1 (min total (if i = np - 1 then total else (i : ℤ) * step + pyRound pn)) := by
  by_cases ha : axis = 1 <;> simp [bEnd, loopBox, ha]

theorem bStart_fallbackBox (h w total : ℤ) (np : ℕ) (axis : ℤ) (i : ℕ) :
    bStart axis (fallbackBox h w total np axis i)
      = pyRound ((i : ℚ) * part_nominal total np) := by
  by_cases ha : axis = 1 <;> simp [bStart, fallbackBox, ha]

theorem bEnd_fallbackBox (h w total : ℤ) (np : ℕ) (axis : ℤ) (i : ℕ) :
    bEnd axis (fallbackBox h w total np axis i)
      = pyRound (((i : ℚ) + 1) * part_nominal total np) := by
  by_cases ha : axis = 1 <;> simp [bEnd, fallbackBox, ha]

/-- When no iteration reaches `total` before the last box, the loop emits
exactly the boxes `loopBox i` for `i = 0, …, num_parts - 1`. -/
theorem splitLoop_eq_of_no_break (h w total : ℤ) (pn : ℚ) (step : ℤ) (np : ℕ) (axis : ℤ)
    (hnb : ∀ j : ℕ, 0 < j → j < np → (j : ℤ) * step < total) :
    ∀ fuel i, fuel + i = np →
      splitLoop h w total pn step np axis fuel i ((i : ℤ) * step)
        = (List.range' i fuel).map (loopBox h w total pn step np axis) := by
  intro fuel
  induction fuel with
  | zero => intro i hi; simp [splitLoop]
  | succ n ih =>
    intro i hi
    rw [List.range'_succ, List.map_cons]
    simp only [splitLoop]
    rcases Nat.eq_zero_or_pos n with rfl | hn
    · by_cases hc : total ≤ (i : ℤ) * step + step
      · rw [if_pos hc]
        simp [splitLoop, loopBox]
      · rw [if_neg hc]
        simp [splitLoop, loopBox]
    · have hi1 : i + 1 < np := by omega
      have hlt : (i : ℤ) * step + step < total := by
        have hj := hnb (i + 1) (by omega) hi1
        push_cast at hj
        linarith
      rw [if_neg (not_le.mpr hlt)]
      have harg : (i : ℤ) * step + step = ((i + 1 : ℕ) : ℤ) * step := by
        push_cast
        ring
      rw [harg, ih (i + 1) (by omega)]
      simp [loopBox]

/-- When some iteration before the last reaches `total`, the loop breaks
early and emits fewer boxes than it has fuel for. -/
theorem splitLoop_length_lt_of_break (h w total : ℤ) (pn : ℚ) (step : ℤ) (np : ℕ) (axis : ℤ) :
    ∀ fuel i, fuel + i = np →
      (∃ j : ℕ, i < j ∧ j < np ∧ total ≤ (j : ℤ) * step) →
      (splitLoop h w total pn step np axis fuel i ((i : ℤ) * step)).length < fuel := by
  intro fuel
  induction fuel with
  | zero =>
    intro i hi hex
    obtain ⟨j, hij, hjnp, _⟩ := hex
    omega
  | succ n ih =>
    intro i hi hex
    obtain ⟨j, hij, hjnp, hjtot⟩ := hex
    simp only [splitLoop]
    by_cases hc : total ≤ (i : ℤ) * step + step
    · rw [if_pos hc]
      simp only [List.length_singleton]
      omega
    · rw [if_neg hc]
      simp only [List.length_cons]
      have hj1 : i + 1 < j := by
        rcases Nat.lt_or_ge (i + 1) j with hlt | hge
        · exact hlt
        · exfalso
          have hj : j = i + 1 := by omega
          subst hj
          apply hc
          have hcast : ((i + 1 : ℕ) : ℤ) * step = (i : ℤ) * step + step := by
            push_cast
            ring
          linarith [hcast ▸ hjtot]
      have harg : (i : ℤ) * step + step = ((i + 1 : ℕ) : ℤ) * step := by
        push_cast
        ring
      rw [harg]
      have := ih (i + 1) (by omega) ⟨j, hj1, hjnp, hjtot⟩
      omega

theorem no_break_of_lt (np : ℕ) (step total : ℤ) (hstep : 1 ≤ step)
    (hlt : ((np - 1 : ℕ) : ℤ) * step < total) :
    ∀ j : ℕ, 0 < j → j < np → (j : ℤ) * step < total := by
  intro j hj0 hjnp
  have hle : (j : ℤ) ≤ ((np - 1 : ℕ) : ℤ) := by
    have : j ≤ np - 1 := by omega
    exact_mod_cast this
  calc (j : ℤ) * step ≤ ((np - 1 : ℕ) : ℤ) * step :=
        mul_le_mul_of_nonneg_right hle (by linarith)
    _ < total := hlt

/-- When the stride never overshoots before the last part, the result is the
repaired loop boxes. -/
theorem split_image_eq_loop (h w : ℤ) (np : ℕ) (f : ℚ) (axis : ℤ) (hnp : 1 ≤ np)
    (hnb : ∀ j : ℕ, 0 < j → j < np →
      (j : ℤ) * stepOf (totalOf h w axis) np f < totalOf h w axis) :
    split_image_with_overlap h w np f axis
      = (List.range np).map (fun i => finalRepair h w
          (loopBox h w (totalOf h w axis) (part_nominal (totalOf h w axis) np)
            (stepOf (totalOf h w axis) np f) np axis i)) := by
  have hA := splitLoop_eq_of_no_break h w (totalOf h w axis)
    (part_nominal (totalOf h w axis) np) (stepOf (totalOf h w axis) np f) np axis hnb np 0
    (by omega)
  simp only [Nat.cast_zero, zero_mul] at hA
  simp only [split_image_with_overlap]
  rw [hA, ← List.range_eq_range']
  rw [if_neg (by simp)]
  rw [List.map_map]
  rfl

/-- When the stride overshoots `total` before the last part, the loop comes
up short and the result is the repaired evenly spaced rebuild. -/
theorem split_image_eq_fallback (h w : ℤ) (np : ℕ) (f : ℚ) (axis : ℤ) (hnp : 2 ≤ np)
    (hbr : totalOf h w axis ≤ ((np - 1 : ℕ) : ℤ) * stepOf (totalOf h w axis) np f) :
    split_image_with_overlap h w np f axis
      = (List.range np).map (fun i => finalRepair h w
          (fallbackBox h w (totalOf h w axis) np axis i)) := by
  have hB := splitLoop_length_lt_of_break h w (totalOf h w axis)
    (part_nominal (totalOf h w axis) np) (stepOf (totalOf h w axis) np f) np axis np 0
    (by omega) ⟨np - 1, by omega, by omega, hbr⟩
  simp only [Nat.cast_zero, zero_mul] at hB
  simp only [split_image_with_overlap]
  rw [if_pos hB]
  simp only [fallbackBoxes, List.map_map]
  rfl

/-- In the no-break regime, the repaired loop boxes have the closed-form
coordinates `[i * step, min total (i * step + round pn))`, the last ending
exactly at `total`. -/
theorem loop_res_coords (h w total : ℤ) (pn : ℚ) (step : ℤ) (np : ℕ) (axis : ℤ)
    (htw : totalOf h w axis = total) (hnp : 2 ≤ np) (hstep : 1 ≤ step)
    (hr : 1 ≤ pyRound pn)
    (hnb : ∀ j : ℕ, 0 < j → j < np → (j : ℤ) * step < total)
    (i : ℕ) (hi : i < np) :
    bStart axis (finalRepair h w (loopBox h w total pn step np axis i)) = (i : ℤ) * step ∧
    bEnd axis (finalRepair h w (loopBox h w total pn step np axis i))
      = if i = np - 1 then total else min total ((i : ℤ) * step + pyRound pn) := by
  have hb0 : 0 ≤ (i : ℤ) * step := mul_nonneg (by positivity) (by linarith)
  have hblast : ((np - 1 : ℕ) : ℤ) * step < total := hnb (np - 1) (by omega) (by omega)
  have hb1 : (i : ℤ) * step ≤ total - 1 := by
    rcases Nat.eq_zero_or_pos i with rfl | hi0
    · have h1 : (1 : ℤ) * step < total := by
        have := hnb 1 (by omega) (by omega)
        simpa using this
      simp only [Nat.cast_zero, zero_mul]
      nlinarith
    · have := hnb i hi0 hi
      omega
  have htot1 : 1 ≤ total := by omega
  constructor
  · rw [bStart_finalRepair, htw, bStart_loopBox]
    omega
  · rw [bEnd_finalRepair, htw, bStart_loopBox, bEnd_loopBox]
    by_cases hlast : i = np - 1
    · rw [if_pos hlast, if_pos hlast]
      have : (i : ℤ) * step ≤ ((np - 1 : ℕ) : ℤ) * step := by rw [hlast]
      omega
    · rw [if_neg hlast, if_neg hlast]
      omega

/-- The repaired rebuild boxes have closed-form coordinates driven by
`round(i * total/num_parts)`. -/
theorem fallback_res_coords (h w total : ℤ) (np : ℕ) (axis : ℤ)
    (htw : totalOf h w axis = total) (hnp : 2 ≤ np) (htot1 : 1 ≤ total)
    (i : ℕ) (hi : i < np) :
    bStart axis (finalRepair h w (fallbackBox h w total np axis i))
      = min (total - 1) (pyRound ((i : ℚ) * part_nominal total np)) ∧
    bEnd axis (finalRepair h w (fallbackBox h w total np axis i))
      = max (min (total - 1) (pyRound ((i : ℚ) * part_nominal total np)) + 1)
          (pyRound (((i : ℚ) + 1) * part_nominal total np)) := by
  have hpn0 : 0 ≤ part_nominal total np := by
    unfold part_nominal
    positivity
  have hr0 : 0 ≤ pyRound ((i : ℚ) * part_nominal total np) :=
    pyRound_nonneg (by positivity)
  have hmono : ∀ a : ℕ, a ≤ np → pyRound ((a : ℚ) * part_nominal total np) ≤ total := by
    intro a hanp
    have hc : (a : ℚ) * part_nominal total np ≤ (np : ℚ) * part_nominal total np := by
      apply mul_le_mul_of_nonneg_right _ hpn0
      exact_mod_cast hanp
    have hnp_total : (np : ℚ) * part_nominal total np = (total : ℚ) := by
      unfold part_nominal
      field_simp
    have := pyRound_mono hc
    rw [hnp_total, pyRound_intCast] at this
    exact this
  have hle_i1 : pyRound (((i : ℚ) + 1) * part_nominal total np) ≤ total := by
    have := hmono (i + 1) (by omega)
    push_cast at this
    exact this
  constructor
  · rw [bStart_finalRepair, htw, bStart_fallbackBox]
    omega
  · rw [bEnd_finalRepair, htw, bStart_fallbackBox, bEnd_fallbackBox]
    omega

/-- Facts available throughout the no-break regime: the extent is at least
`num_parts`, the nominal part length is at least one pixel, and the stride
is at most the rounded nominal length. -/
theorem loop_context_facts (h w : ℤ) (np : ℕ) (f : ℚ) (axis : ℤ) (hnp : 2 ≤ np)
    (hf0 : 0 ≤ f)
    (hnb : ∀ j : ℕ, 0 < j → j < np →
      (j : ℤ) * stepOf (totalOf h w axis) np f < totalOf h w axis) :
    (np : ℤ) ≤ totalOf h w axis ∧
    1 ≤ part_nominal (totalOf h w axis) np ∧
    1 ≤ pyRound (part_nominal (totalOf h w axis) np) ∧
    stepOf (totalOf h w axis) np f ≤ pyRound (part_nominal (totalOf h w axis) np) := by
  have hstep : 1 ≤ stepOf (totalOf h w axis) np f := one_le_stepOf _ _ _
  have hlast := hnb (np - 1) (by omega) (by omega)
  have hcast : ((np - 1 : ℕ) : ℤ) = (np : ℤ) - 1 := by omega
  rw [hcast] at hlast
  have htot : (np : ℤ) ≤ totalOf h w axis := by nlinarith
  have hnpq : (0 : ℚ) < (np : ℚ) := by positivity
  have hpn1 : 1 ≤ part_nominal (totalOf h w axis) np := by
    unfold part_nominal
    rw [le_div_iff hnpq]
    have : ((np : ℤ) : ℚ) ≤ ((totalOf h w axis : ℤ) : ℚ) := by exact_mod_cast htot
    push_cast at this ⊢
    linarith
  have hr1 : 1 ≤ pyRound (part_nominal (totalOf h w axis) np) := one_le_pyRound hpn1
  refine ⟨htot, hpn1, hr1, ?_⟩
  rw [stepOf_eq_max]
  have hs0 : pyRound (part_nominal (totalOf h w axis) np * (1 - f))
      ≤ pyRound (part_nominal (totalOf h w axis) np) := by
    apply pyRound_mono
    nlinarith
  omega

/-- Every output box, on either path, is the repair of a box spanning the
full orthogonal extent. -/
theorem split_image_mem_shape (h w : ℤ) (np : ℕ) (f : ℚ) (axis : ℤ) :
    ∀ b ∈ split_image_with_overlap h w np f axis,
      ∃ s e : ℤ, b = finalRepair h w (if axis = 1 then Box.mk 0 h s e else Box.mk s e 0 w) := by
  intro b hb
  simp only [split_image_with_overlap, List.mem_map] at hb
  obtain ⟨b', hb', rfl⟩ := hb
  by_cases hc : (splitLoop h w (totalOf h w axis) (part_nominal (totalOf h w axis) np)
      (stepOf (totalOf h w axis) np f) np axis np 0 0).length < np
  · rw [if_pos hc] at hb'
    obtain ⟨s, e, rfl⟩ := fallbackBoxes_shape h w (totalOf h w axis) np axis b' hb'
    exact ⟨s, e, rfl⟩
  · rw [if_neg hc] at hb'
    obtain ⟨s, e, rfl⟩ := splitLoop_shape h w (totalOf h w axis)
      (part_nominal (totalOf h w axis) np) (stepOf (totalOf h w axis) np f) np axis
      np 0 0 b' hb'
    exact ⟨s, e, rfl⟩

/-- The rebuild start positions `round(i * total/num_parts)` are monotone. -/
theorem rho_mono (total : ℤ) (np : ℕ) (htot : 0 ≤ total) {a b : ℕ} (hab : a ≤ b) :
    pyRound ((a : ℚ) * part_nominal total np)
      ≤ pyRound ((b : ℚ) * part_nominal total np) := by
  apply pyRound_mono
  apply mul_le_mul_of_nonneg_right
  · exact_mod_cast hab
  · unfold part_nominal
    positivity

theorem rho_nonneg (total : ℤ) (np : ℕ) (htot : 0 ≤ total) (i : ℕ) :
    0 ≤ pyRound ((i : ℚ) * part_nominal total np) := by
  apply pyRound_nonneg
  have : (0 : ℚ) ≤ part_nominal total np := by
    unfold part_nominal
    positivity
  positivity

theorem rho_le_total (total : ℤ) (np : ℕ) (hnp : 0 < np) (htot : 0 ≤ total)
    (i : ℕ) (hi : i ≤ np) :
    pyRound ((i : ℚ) * part_nominal total np) ≤ total := by
  have h1 := rho_mono total np htot hi
  have h2 : ((np : ℕ) : ℚ) * part_nominal total np = ((total : ℤ) : ℚ) := by
    unfold part_nominal
    have hne : ((np : ℕ) : ℚ) ≠ 0 := Nat.cast_ne_zero.mpr (by omega)
    field_simp
  rw [h2, pyRound_intCast] at h1
  exact h1

theorem rho_np (total : ℤ) (np : ℕ) (hnp : 0 < np) :
    pyRound ((np : ℚ) * part_nominal total np) = total := by
  have hne : ((np : ℕ) : ℚ) ≠ 0 := Nat.cast_ne_zero.mpr (by omega)
  have h2 : ((np : ℕ) : ℚ) * part_nominal total np = ((total : ℤ) : ℚ) := by
    unfold part_nominal
    field_simp
  rw [h2, pyRound_intCast]

/-- An ordered family of `n` integer ranges with no gaps, starting at `0` and
ending at `T`, covers exactly `[0, T)`. -/
theorem union_cover (sfn efn : ℕ → ℤ) (T : ℤ) (n : ℕ) (hn : 1 ≤ n)
    (h0 : sfn 0 = 0) (hlast : efn (n - 1) = T)
    (hgap : ∀ i, i + 1 < n → sfn (i + 1) ≤ efn i)
    (hlo : ∀ i, i < n → 0 ≤ sfn i) (hhi : ∀ i, i < n → efn i ≤ T) :
    ∀ z : ℤ, (0 ≤ z ∧ z < T) ↔ ∃ i, i < n ∧ sfn i ≤ z ∧ z < efn i := by
  intro z
  constructor
  · rintro ⟨hz0, hzT⟩
    have hex : ∃ i, z < efn i := ⟨n - 1, by rw [hlast]; exact hzT⟩
    have hspec : z < efn (Nat.find hex) := Nat.find_spec hex
    have hmin : ∀ m, m < Nat.find hex → ¬ z < efn m := fun m hm => Nat.find_min hex hm
    have hi0n : Nat.find hex < n := by
      by_contra hcon
      push_neg at hcon
      exact hmin (n - 1) (by omega) (by rw [hlast]; exact hzT)
    refine ⟨Nat.find hex, hi0n, ?_, hspec⟩
    rcases Nat.eq_zero_or_pos (Nat.find hex) with hz | hpos
    · rw [hz, h0]
      exact hz0
    · have hk : Nat.find hex - 1 + 1 = Nat.find hex := by omega
      have h1 : ¬ z < efn (Nat.find hex - 1) := hmin _ (by omega)
      have h2 := hgap (Nat.find hex - 1) (by omega)
      rw [hk] at h2
      omega
  · rintro ⟨i, hin, hsi, hei⟩
    exact ⟨le_trans (hlo i hin) hsi, lt_of_lt_of_le hei (hhi i hin)⟩

/-- Closed-form coordinates of the `i`-th output box in the no-break regime. -/
theorem loop_res_getElem (h w : ℤ) (np : ℕ) (f : ℚ) (axis : ℤ)
    (hnp2 : 2 ≤ np) (hf0 : 0 ≤ f)
    (hnb : ∀ j : ℕ, 0 < j → j < np →
      (j : ℤ) * stepOf (totalOf h w axis) np f < totalOf h w axis)
    (i : ℕ) (hi : i < np)
    (hilen : i < (split_image_with_overlap h w np f axis).length) :
    bStart axis ((split_image_with_overlap h w np f axis)[i])
      = (i : ℤ) * stepOf (totalOf h w axis) np f ∧
    bEnd axis ((split_image_with_overlap h w np f axis)[i])
      = if i = np - 1 then totalOf h w axis
        else min (totalOf h w axis)
          ((i : ℤ) * stepOf (totalOf h w axis) np f
            + pyRound (part_nominal (totalOf h w axis) np)) := by
  have hstep := one_le_stepOf (totalOf h w axis) np f
  obtain ⟨-, -, hr1, -⟩ := loop_context_facts h w np f axis hnp2 hf0 hnb
  have heq := split_image_eq_loop h w np f axis (by omega) hnb
  simp only [heq, List.getElem_map, List.getElem_range]
  exact loop_res_coords h w (totalOf h w axis) (part_nominal (totalOf h w axis) np)
    (stepOf (totalOf h w axis) np f) np axis rfl hnp2 hstep hr1 hnb i hi

/-- Closed-form coordinates of the `i`-th output box on the fallback path. -/
theorem fallback_res_getElem (h w : ℤ) (np : ℕ) (f : ℚ) (axis : ℤ)
    (hnp2 : 2 ≤ np) (htot1 : 1 ≤ totalOf h w axis)
    (hbr : totalOf h w axis ≤ ((np - 1 : ℕ) : ℤ) * stepOf (totalOf h w axis) np f)
    (i : ℕ) (hi : i < np)
    (hilen : i < (split_image_with_overlap h w np f axis).length) :
    bStart axis ((split_image_with_overlap h w np f axis)[i])
      = min (totalOf h w axis - 1)
          (pyRound ((i : ℚ) * part_nominal (totalOf h w axis) np)) ∧
    bEnd axis ((split_image_with_overlap h w np f axis)[i])
      = max (min (totalOf h w axis - 1)
            (pyRound ((i : ℚ) * part_nominal (totalOf h w axis) np)) + 1)
          (pyRound (((i : ℚ) + 1) * part_nominal (totalOf h w axis) np)) := by
  have heq := split_image_eq_fallback h w np f axis hnp2 hbr
  simp only [heq, List.getElem_map, List.getElem_range]
  exact fallback_res_coords h w (totalOf h w axis) np axis rfl hnp2 htot1 i hi

/-- C1: for every `total ≥ num_parts ≥ 2` with `num_parts ∈ {2,3,4,5}`, every
`overlap_frac ∈ [0, 1/2]` and either axis, `split_image_with_overlap` returns
exactly `num_parts` crop boxes. -/
theorem claim_C1_count (h w : ℤ) (np : ℕ) (f : ℚ) (axis : ℤ)
    (hnp2 : 2 ≤ np) (hnp5 : np ≤ 5) (hf0 : 0 ≤ f) (hf1 : f ≤ 1/2)
    (hax : axis = 0 ∨ axis = 1) (htot : (np : ℤ) ≤ totalOf h w axis) :
    (split_image_with_overlap h w np f axis).length = np :=
  split_image_length h w np f axis

theorem claim_C1_count_witness :
    (2 ≤ 3 ∧ 3 ≤ 5 ∧ (0 : ℚ) ≤ 1/5 ∧ (1/5 : ℚ) ≤ 1/2 ∧ ((3 : ℕ) : ℤ) ≤ totalOf 500 1000 1) ∧
    (split_image_with_overlap 500 1000 3 (1/5) 1).length = 3 :=
  ⟨⟨by norm_num, by norm_num, by norm_num, by norm_num, by norm_num [totalOf]⟩,
    claim_C1_count 500 1000 3 (1/5) 1 (by norm_num) (by norm_num) (by norm_num)
      (by norm_num) (Or.inr rfl) (by norm_num [totalOf])⟩

/-- C3: every returned box `(y0, y1, x0, x1)` satisfies
`0 ≤ y0 < y1 ≤ height` and `0 ≤ x0 < x1 ≤ width`, for every image with
positive dimensions, `num_parts ∈ [2,5]`, `overlap_frac ∈ [0, 1/2]`, either
axis. -/
theorem claim_C3_validity (h w : ℤ) (np : ℕ) (f : ℚ) (axis : ℤ)
    (hh : 1 ≤ h) (hw : 1 ≤ w) (hnp2 : 2 ≤ np) (hnp5 : np ≤ 5)
    (hf0 : 0 ≤ f) (hf1 : f ≤ 1/2) (hax : axis = 0 ∨ axis = 1) :
    ∀ b ∈ split_image_with_overlap h w np f axis,
      0 ≤ b.y0 ∧ b.y0 < b.y1 ∧ b.y1 ≤ h ∧ 0 ≤ b.x0 ∧ b.x0 < b.x1 ∧ b.x1 ≤ w := by
  intro b hb
  simp only [split_image_with_overlap, List.mem_map] at hb
  obtain ⟨b', _, rfl⟩ := hb
  exact finalRepair_valid h w hh hw b'

theorem claim_C3_validity_witness :
    ((1 : ℤ) ≤ 500 ∧ (1 : ℤ) ≤ 1000 ∧ 2 ≤ 3 ∧ 3 ≤ 5 ∧ (0 : ℚ) ≤ 1/5 ∧ (1/5 : ℚ) ≤ 1/2) ∧
    (∀ b ∈ split_image_with_overlap 500 1000 3 (1/5) 1,
      0 ≤ b.y0 ∧ b.y0 < b.y1 ∧ b.y1 ≤ 500 ∧ 0 ≤ b.x0 ∧ b.x0 < b.x1 ∧ b.x1 ≤ 1000) :=
  ⟨⟨by norm_num, by norm_num, by norm_num, by norm_num, by norm_num, by norm_num⟩,
    claim_C3_validity 500 1000 3 (1/5) 1 (by norm_num) (by norm_num) (by norm_num)
      (by norm_num) (by norm_num) (by norm_num) (Or.inr rfl)⟩

/-- C6: `choose_num_parts` realises exactly the threshold table
(5 from 5000, 4 from 3500, 3 from 2200, else 2), always lies in `[2,5]`,
and takes the stated values at the eight boundary inputs. -/
theorem claim_C6_thresholds :
    (∀ d : ℤ, 0 < d →
      (5000 ≤ d → choose_num_parts d = 5) ∧
      (3500 ≤ d ∧ d < 5000 → choose_num_parts d = 4) ∧
      (2200 ≤ d ∧ d < 3500 → choose_num_parts d = 3) ∧
      (d < 2200 → choose_num_parts d = 2) ∧
      2 ≤ choose_num_parts d ∧ choose_num_parts d ≤ 5) ∧
    choose_num_parts 999 = 2 ∧ choose_num_parts 1000 = 2 ∧
    choose_num_parts 2199 = 2 ∧ choose_num_parts 2200 = 3 ∧
    choose_num_parts 3499 = 3 ∧ choose_num_parts 3500 = 4 ∧
    choose_num_parts 4999 = 4 ∧ choose_num_parts 5000 = 5 := by
  refine ⟨fun d _ => ?_, ?_, ?_, ?_, ?_, ?_, ?_, ?_, ?_⟩
  · unfold choose_num_parts
    split_ifs <;> omega
  all_goals decide

theorem claim_C6_thresholds_witness :
    (0 : ℤ) < 5000 ∧ (5000 : ℤ) ≤ 5000 ∧ choose_num_parts 5000 = 5 :=
  ⟨by decide, by decide, (claim_C6_thresholds.1 5000 (by decide)).1 (by decide)⟩

/-- C8: under the preconditions `total ≥ 1`, `overlap_frac ∈ [0, 1/2]`,
`num_parts ∈ [2,5]`, the partitioner never fails: the checked variant (whose
one fallible operation, the division by `num_parts`, is guarded) returns
`some`, and the result is a nonempty list of `num_parts` boxes. -/
theorem claim_C8_no_failure (h w : ℤ) (np : ℕ) (f : ℚ) (axis : ℤ)
    (htot : 1 ≤ totalOf h w axis) (hnp2 : 2 ≤ np) (hnp5 : np ≤ 5)
    (hf0 : 0 ≤ f) (hf1 : f ≤ 1/2) :
    split_image_checked h w np f axis = some (split_image_with_overlap h w np f axis) ∧
    (split_image_with_overlap h w np f axis).length = np ∧
    split_image_with_overlap h w np f axis ≠ [] := by
  have hnp0 : np ≠ 0 := by omega
  have hlen := split_image_length h w np f axis
  refine ⟨by simp [split_image_checked, hnp0], hlen, ?_⟩
  intro hnil
  rw [hnil] at hlen
  simp at hlen
  omega

theorem claim_C8_no_failure_witness :
    ((1 : ℤ) ≤ totalOf 500 1000 1 ∧ 2 ≤ 3 ∧ 3 ≤ 5 ∧ (0 : ℚ) ≤ 1/5 ∧ (1/5 : ℚ) ≤ 1/2) ∧
    split_image_checked 500 1000 3 (1/5) 1 = some (split_image_with_overlap 500 1000 3 (1/5) 1) ∧
    (split_image_with_overlap 500 1000 3 (1/5) 1).length = 3 ∧
    split_image_with_overlap 500 1000 3 (1/5) 1 ≠ [] :=
  ⟨⟨by norm_num [totalOf], by norm_num, by norm_num, by norm_num, by norm_num⟩,
    claim_C8_no_failure 500 1000 3 (1/5) 1 (by norm_num [totalOf]) (by norm_num)
      (by norm_num) (by norm_num) (by norm_num)⟩

/-- C9: the orthogonal axis of every returned box spans the full other
dimension: `y0 = 0, y1 = height` when splitting columns, `x0 = 0, x1 = width`
when splitting rows. -/
theorem claim_C9_orthogonal_span (h w : ℤ) (np : ℕ) (f : ℚ) (axis : ℤ)
    (hh : 1 ≤ h) (hw : 1 ≤ w) (hnp2 : 2 ≤ np) (hnp5 : np ≤ 5)
    (hf0 : 0 ≤ f) (hf1 : f ≤ 1/2) :
    (axis = 1 → ∀ b ∈ split_image_with_overlap h w np f axis, b.y0 = 0 ∧ b.y1 = h) ∧
    (axis = 0 → ∀ b ∈ split_image_with_overlap h w np f axis, b.x0 = 0 ∧ b.x1 = w) := by
  constructor
  · intro ha b hb
    subst ha
    obtain ⟨s, e, rfl⟩ := split_image_mem_shape h w np f 1 b hb
    rw [if_pos rfl]
    refine ⟨?_, ?_⟩ <;> simp [finalRepair] <;> omega
  · intro ha b hb
    subst ha
    obtain ⟨s, e, rfl⟩ := split_image_mem_shape h w np f 0 b hb
    rw [if_neg (by norm_num)]
    refine ⟨?_, ?_⟩ <;> simp [finalRepair] <;> omega

theorem np_mul_part_nominal (total : ℤ) (np : ℕ) (hnp : np ≠ 0) :
    (np : ℚ) * part_nominal total np = (total : ℚ) := by
  unfold part_nominal
  have hne : ((np : ℕ) : ℚ) ≠ 0 := Nat.cast_ne_zero.mpr hnp
  field_simp

/-- On the fallback path the expected overlap `overlap_frac * total/num_parts`
is at most one pixel: the stride bound forces a small nominal part. -/
theorem fallback_fpn (total : ℤ) (np : ℕ) (f : ℚ) (hnp2 : 2 ≤ np) (hnp5 : np ≤ 5)
    (htot1 : 1 ≤ total) (hf0 : 0 ≤ f) (hf1 : f ≤ 1/2)
    (hbr : total ≤ ((np - 1 : ℕ) : ℤ) * stepOf total np f) :
    f * part_nominal total np ≤ 1 := by
  have hTQ := np_mul_part_nominal total np (by omega)
  have hq2 : (2 : ℚ) ≤ (np : ℚ) := by exact_mod_cast hnp2
  have hq5 : ((np : ℕ) : ℚ) ≤ 5 := by exact_mod_cast hnp5
  have htQ : (1 : ℚ) ≤ ((total : ℤ) : ℚ) := by exact_mod_cast htot1
  have hpn0 : 0 < part_nominal total np := by
    unfold part_nominal
    apply div_pos (by linarith) (by linarith)
  rcases le_or_lt (pyRound (part_nominal total np * (1 - f))) 1 with hs0 | hs0
  · have hS1 : stepOf total np f = 1 := by
      rw [stepOf_eq_max]
      omega
    rw [hS1, mul_one] at hbr
    have hb' : ((total : ℤ) : ℚ) ≤ (np : ℚ) - 1 := by
      have hz : total ≤ (np : ℤ) - 1 := by omega
      push_cast
      exact_mod_cast hz
    nlinarith [hTQ, hpn0, hb', hq2, hf1, hf0]
  · have hS : stepOf total np f = pyRound (part_nominal total np * (1 - f)) := by
      rw [stepOf_eq_max]
      omega
    have hs0q : (pyRound (part_nominal total np * (1 - f)) : ℚ)
        ≤ part_nominal total np * (1 - f) + 1/2 := pyRound_le_add_half _
    have hbrq : ((total : ℤ) : ℚ)
        ≤ ((np : ℚ) - 1) * (pyRound (part_nominal total np * (1 - f)) : ℚ) := by
      rw [hS] at hbr
      have hc : ((np - 1 : ℕ) : ℤ) = (np : ℤ) - 1 := by omega
      rw [hc] at hbr
      exact_mod_cast hbr
    have key : (np : ℚ) * part_nominal total np
        ≤ ((np : ℚ) - 1) * (part_nominal total np * (1 - f) + 1/2) := by
      rw [hTQ]
      exact le_trans hbrq (mul_le_mul_of_nonneg_left hs0q (by linarith))
    have key2 : part_nominal total np * (1 + f * ((np : ℚ) - 1)) ≤ ((np : ℚ) - 1)/2 := by
      nlinarith [key]
    have key3 := mul_le_mul_of_nonneg_left key2 hf0
    nlinarith [key3, hf1, hq5, hq2, hpn0.le,
      mul_nonneg (mul_nonneg hf0 hpn0.le) (mul_nonneg hf0 (by linarith : (0:ℚ) ≤ (np:ℚ) - 1)),
      mul_nonneg hf0 hpn0.le]

/-- C2: for every valid input the union of the returned half-open ranges
along the split axis is exactly `[0, total)`: the result has `num_parts`
boxes, the first starts at `0`, the last ends at `total`, and consecutive
boxes leave no gap. -/
theorem claim_C2_coverage (h w : ℤ) (np : ℕ) (f : ℚ) (axis : ℤ)
    (hh : 1 ≤ h) (hw : 1 ≤ w) (hnp2 : 2 ≤ np) (hnp5 : np ≤ 5)
    (hf0 : 0 ≤ f) (hf1 : f ≤ 1/2) (hax : axis = 0 ∨ axis = 1) :
    (split_image_with_overlap h w np f axis).length = np ∧
    (∀ h0 : 0 < (split_image_with_overlap h w np f axis).length,
      bStart axis ((split_image_with_overlap h w np f axis)[0]) = 0) ∧
    (∀ hl : np - 1 < (split_image_with_overlap h w np f axis).length,
      bEnd axis ((split_image_with_overlap h w np f axis)[np - 1]) = totalOf h w axis) ∧
    (∀ i (hi : i + 1 < (split_image_with_overlap h w np f axis).length),
      bStart axis ((split_image_with_overlap h w np f axis)[i + 1])
        ≤ bEnd axis ((split_image_with_overlap h w np f axis)[i])) ∧
    (∀ z : ℤ, (0 ≤ z ∧ z < totalOf h w axis) ↔
      ∃ b ∈ split_image_with_overlap h w np f axis,
        bStart axis b ≤ z ∧ z < bEnd axis b) := by
  have htot1 : 1 ≤ totalOf h w axis := by
    unfold totalOf
    split_ifs <;> omega
  have hstep := one_le_stepOf (totalOf h w axis) np f
  have hlen := split_image_length h w np f axis
  have hrev : ∀ z : ℤ, (∃ b ∈ split_image_with_overlap h w np f axis,
      bStart axis b ≤ z ∧ z < bEnd axis b) → 0 ≤ z ∧ z < totalOf h w axis := by
    rintro z ⟨b, hb, hsb, heb⟩
    simp only [split_image_with_overlap, List.mem_map] at hb
    obtain ⟨b', -, rfl⟩ := hb
    obtain ⟨h1, h2, h3, h4⟩ := finalRepair_split_bounds h w axis b' htot1
    omega
  rcases lt_or_ge (((np - 1 : ℕ) : ℤ) * stepOf (totalOf h w axis) np f)
      (totalOf h w axis) with hcase | hcase
  · -- no-break path
    have hnb := no_break_of_lt np _ _ hstep hcase
    obtain ⟨htotnp, hpn1, hr1, hrs⟩ := loop_context_facts h w np f axis hnp2 hf0 hnb
    have coords := loop_res_getElem h w np f axis hnp2 hf0 hnb
    have hgap : ∀ i, i + 1 < np →
        ((i + 1 : ℕ) : ℤ) * stepOf (totalOf h w axis) np f
          ≤ (if i = np - 1 then totalOf h w axis
            else min (totalOf h w axis) ((i : ℤ) * stepOf (totalOf h w axis) np f
              + pyRound (part_nominal (totalOf h w axis) np))) := by
      intro i hip
      rw [if_neg (by omega)]
      have hlt := hnb (i + 1) (by omega) hip
      have hc : ((i + 1 : ℕ) : ℤ) * stepOf (totalOf h w axis) np f
          = (i : ℤ) * stepOf (totalOf h w axis) np f + stepOf (totalOf h w axis) np f := by
        push_cast
        ring
      rw [hc] at hlt ⊢
      omega
    refine ⟨hlen, ?_, ?_, ?_, ?_⟩
    · intro h0
      have := (coords 0 (by omega) h0).1
      simpa using this
    · intro hl
      have := (coords (np - 1) (by omega) hl).2
      rw [if_pos rfl] at this
      exact this
    · intro i hi
      have hi' : i + 1 < np := by omega
      rw [(coords (i + 1) (by omega) hi).1, (coords i (by omega) (by omega)).2]
      exact hgap i hi'
    · intro z
      refine ⟨?_, hrev z⟩
      intro hz
      have hcov := union_cover (fun i => (i : ℤ) * stepOf (totalOf h w axis) np f)
        (fun i => if i = np - 1 then totalOf h w axis
          else min (totalOf h w axis) ((i : ℤ) * stepOf (totalOf h w axis) np f
            + pyRound (part_nominal (totalOf h w axis) np)))
        (totalOf h w axis) np (by omega) (by simp) (by simp) hgap
        (fun i _ => mul_nonneg (by positivity) (by omega))
        (fun i _ => by
          dsimp only
          split_ifs
          · omega
          · exact min_le_left _ _) z
      obtain ⟨i, hin, hsf, hef⟩ := hcov.mp hz
      have hilen : i < (split_image_with_overlap h w np f axis).length := by omega
      refine ⟨(split_image_with_overlap h w np f axis)[i], List.getElem_mem _, ?_⟩
      rw [(coords i hin hilen).1, (coords i hin hilen).2]
      exact ⟨hsf, hef⟩
  · -- fallback path
    have coords := fallback_res_getElem h w np f axis hnp2 htot1 hcase
    have hz0 : pyRound (0 : ℚ) = 0 := by
      simpa using pyRound_intCast 0
    have hgap : ∀ i, i + 1 < np →
        min (totalOf h w axis - 1)
            (pyRound (((i + 1 : ℕ) : ℚ) * part_nominal (totalOf h w axis) np))
          ≤ max (min (totalOf h w axis - 1)
              (pyRound ((i : ℚ) * part_nominal (totalOf h w axis) np)) + 1)
            (pyRound (((i : ℚ) + 1) * part_nominal (totalOf h w axis) np)) := by
      intro i hip
      have hc : ((i + 1 : ℕ) : ℚ) = (i : ℚ) + 1 := by push_cast; ring
      rw [hc]
      omega
    have hlast : max (min (totalOf h w axis - 1)
          (pyRound (((np - 1 : ℕ) : ℚ) * part_nominal (totalOf h w axis) np)) + 1)
        (pyRound ((((np - 1 : ℕ) : ℚ) + 1) * part_nominal (totalOf h w axis) np))
        = totalOf h w axis := by
      have hcast : ((np - 1 : ℕ) : ℚ) + 1 = ((np : ℕ) : ℚ) := by
        rw [Nat.cast_sub (by omega)]
        push_cast
        ring
      rw [hcast, rho_np _ _ (by omega)]
      omega
    refine ⟨hlen, ?_, ?_, ?_, ?_⟩
    · intro h0
      have := (coords 0 (by omega) h0).1
      rw [Nat.cast_zero, zero_mul, hz0] at this
      omega
    · intro hl
      have := (coords (np - 1) (by omega) hl).2
      rw [this, hlast]
    · intro i hi
      have hi' : i + 1 < np := by omega
      rw [(coords (i + 1) (by omega) hi).1, (coords i (by omega) (by omega)).2]
      exact hgap i hi'
    · intro z
      refine ⟨?_, hrev z⟩
      intro hz
      have hcov := union_cover
        (fun i => min (totalOf h w axis - 1)
          (pyRound ((i : ℚ) * part_nominal (totalOf h w axis) np)))
        (fun i => max (min (totalOf h w axis - 1)
            (pyRound ((i : ℚ) * part_nominal (totalOf h w axis) np)) + 1)
          (pyRound (((i : ℚ) + 1) * part_nominal (totalOf h w axis) np)))
        (totalOf h w axis) np (by omega)
        (by dsimp only; rw [Nat.cast_zero, zero_mul, hz0]; omega)
        hlast hgap
        (fun i _ => by
          dsimp only
          have := rho_nonneg (totalOf h w axis) np (by omega) i
          omega)
        (fun i hin => by
          dsimp only
          have h1 : pyRound (((i : ℚ) + 1) * part_nominal (totalOf h w axis) np)
              ≤ totalOf h w axis := by
            have := rho_le_total (totalOf h w axis) np (by omega) (by omega) (i + 1)
              (by omega)
            push_cast at this
            exact this
          omega) z
      obtain ⟨i, hin, hsf, hef⟩ := hcov.mp hz
      have hilen : i < (split_image_with_overlap h w np f axis).length := by omega
      refine ⟨(split_image_with_overlap h w np f axis)[i], List.getElem_mem _, ?_⟩
      rw [(coords i hin hilen).1, (coords i hin hilen).2]
      exact ⟨hsf, hef⟩

theorem claim_C2_coverage_witness :
    ((1 : ℤ) ≤ 500 ∧ (1 : ℤ) ≤ 1000 ∧ 2 ≤ 3 ∧ 3 ≤ 5 ∧ (0 : ℚ) ≤ 1/5 ∧ (1/5 : ℚ) ≤ 1/2) ∧
    ((split_image_with_overlap 500 1000 3 (1/5) 1).length = 3 ∧
      (∀ h0 : 0 < (split_image_with_overlap 500 1000 3 (1/5) 1).length,
        bStart 1 ((split_image_with_overlap 500 1000 3 (1/5) 1)[0]) = 0) ∧
      (∀ hl : 3 - 1 < (split_image_with_overlap 500 1000 3 (1/5) 1).length,
        bEnd 1 ((split_image_with_overlap 500 1000 3 (1/5) 1)[3 - 1]) = totalOf 500 1000 1) ∧
      (∀ i (hi : i + 1 < (split_image_with_overlap 500 1000 3 (1/5) 1).length),
        bStart 1 ((split_image_with_overlap 500 1000 3 (1/5) 1)[i + 1])
          ≤ bEnd 1 ((split_image_with_overlap 500 1000 3 (1/5) 1)[i])) ∧
      (∀ z : ℤ, (0 ≤ z ∧ z < totalOf 500 1000 1) ↔
        ∃ b ∈ split_image_with_overlap 500 1000 3 (1/5) 1,
          bStart 1 b ≤ z ∧ z < bEnd 1 b)) :=
  ⟨⟨by norm_num, by norm_num, by norm_num, by norm_num, by norm_num, by norm_num⟩,
    claim_C2_coverage 500 1000 3 (1/5) 1 (by norm_num) (by norm_num) (by norm_num)
      (by norm_num) (by norm_num) (by norm_num) (Or.inr rfl)⟩

/-- C7: the returned boxes are ordered by ascending start coordinate along
the split axis, on both the overlap-stride path and the fallback path. -/
theorem claim_C7_ordering (h w : ℤ) (np : ℕ) (f : ℚ) (axis : ℤ)
    (hh : 1 ≤ h) (hw : 1 ≤ w) (hnp2 : 2 ≤ np) (hnp5 : np ≤ 5)
    (hf0 : 0 ≤ f) (hf1 : f ≤ 1/2) (hax : axis = 0 ∨ axis = 1) :
    ∀ i j (hi : i < (split_image_with_overlap h w np f axis).length)
        (hj : j < (split_image_with_overlap h w np f axis).length), i ≤ j →
      bStart axis ((split_image_with_overlap h w np f axis)[i])
        ≤ bStart axis ((split_image_with_overlap h w np f axis)[j]) := by
  have htot1 : 1 ≤ totalOf h w axis := by
    unfold totalOf
    split_ifs <;> omega
  have hstep := one_le_stepOf (totalOf h w axis) np f
  intro i j hi hj hij
  have hi' : i < np := by rwa [split_image_length] at hi
  have hj' : j < np := by rwa [split_image_length] at hj
  rcases lt_or_ge (((np - 1 : ℕ) : ℤ) * stepOf (totalOf h w axis) np f)
      (totalOf h w axis) with hcase | hcase
  · have hnb := no_break_of_lt np _ _ hstep hcase
    have heq := split_image_eq_loop h w np f axis (by omega) hnb
    obtain ⟨-, -, hr1, -⟩ := loop_context_facts h w np f axis hnp2 hf0 hnb
    have hci := (loop_res_coords h w (totalOf h w axis) (part_nominal (totalOf h w axis) np)
      (stepOf (totalOf h w axis) np f) np axis rfl hnp2 hstep hr1 hnb i hi').1
    have hcj := (loop_res_coords h w (totalOf h w axis) (part_nominal (totalOf h w axis) np)
      (stepOf (totalOf h w axis) np f) np axis rfl hnp2 hstep hr1 hnb j hj').1
    simp only [heq, List.getElem_map, List.getElem_range]
    rw [hci, hcj]
    exact mul_le_mul_of_nonneg_right (by exact_mod_cast hij) (by linarith)
  · have heq := split_image_eq_fallback h w np f axis hnp2 hcase
    have hci := (fallback_res_coords h w (totalOf h w axis) np axis rfl hnp2 htot1 i hi').1
    have hcj := (fallback_res_coords h w (totalOf h w axis) np axis rfl hnp2 htot1 j hj').1
    simp only [heq, List.getElem_map, List.getElem_range]
    rw [hci, hcj]
    have hm := rho_mono (totalOf h w axis) np (by omega) (a := i) (b := j) hij
    omega

theorem claim_C7_ordering_witness :
    ((1 : ℤ) ≤ 500 ∧ (1 : ℤ) ≤ 1000 ∧ 2 ≤ 3 ∧ 3 ≤ 5 ∧ (0 : ℚ) ≤ 1/5 ∧ (1/5 : ℚ) ≤ 1/2 ∧
      (0 : ℕ) ≤ 1 ∧ 1 < (split_image_with_overlap 500 1000 3 (1/5) 1).length) ∧
    ∀ hi : 0 < (split_image_with_overlap 500 1000 3 (1/5) 1).length,
      ∀ hj : 1 < (split_image_with_overlap 500 1000 3 (1/5) 1).length,
      bStart 1 ((split_image_with_overlap 500 1000 3 (1/5) 1)[0])
        ≤ bStart 1 ((split_image_with_overlap 500 1000 3 (1/5) 1)[1]) :=
  ⟨⟨by norm_num, by norm_num, by norm_num, by norm_num, by norm_num, by norm_num, by norm_num,
    by rw [split_image_length]; norm_num⟩,
    fun hi hj => claim_C7_ordering 500 1000 3 (1/5) 1 (by norm_num) (by norm_num) (by norm_num)
      (by norm_num) (by norm_num) (by norm_num) (Or.inr rfl) 0 1 hi hj (by norm_num)⟩

set_option maxHeartbeats 1000000 in
/-- C4 (amended): for every valid input with `overlap_frac > 0`, each pair of
consecutive boxes overlaps along the split axis by a nonnegative amount, and
that amount differs from `overlap_frac * (total/num_parts)` by at most one
pixel.  (The original claim's strict positivity fails; see the
counterexample.) -/
theorem claim_C4_overlap_amended (h w : ℤ) (np : ℕ) (f : ℚ) (axis : ℤ)
    (hh : 1 ≤ h) (hw : 1 ≤ w) (hnp2 : 2 ≤ np) (hnp5 : np ≤ 5)
    (hf0 : 0 < f) (hf1 : f ≤ 1/2) (hax : axis = 0 ∨ axis = 1) :
    ∀ i (hi : i + 1 < (split_image_with_overlap h w np f axis).length),
      0 ≤ min (bEnd axis ((split_image_with_overlap h w np f axis)[i]))
            (bEnd axis ((split_image_with_overlap h w np f axis)[i + 1]))
          - max (bStart axis ((split_image_with_overlap h w np f axis)[i]))
            (bStart axis ((split_image_with_overlap h w np f axis)[i + 1])) ∧
      |((min (bEnd axis ((split_image_with_overlap h w np f axis)[i]))
            (bEnd axis ((split_image_with_overlap h w np f axis)[i + 1]))
          - max (bStart axis ((split_image_with_overlap h w np f axis)[i]))
            (bStart axis ((split_image_with_overlap h w np f axis)[i + 1])) : ℤ) : ℚ)
          - f * part_nominal (totalOf h w axis) np| ≤ 1 := by
  have htot1 : 1 ≤ totalOf h w axis := by
    unfold totalOf
    split_ifs <;> omega
  have hstep := one_le_stepOf (totalOf h w axis) np f
  have hlen := split_image_length h w np f axis
  have hq2 : (2 : ℚ) ≤ ((np : ℕ) : ℚ) := by exact_mod_cast hnp2
  have hq5 : ((np : ℕ) : ℚ) ≤ 5 := by exact_mod_cast hnp5
  have hTQ := np_mul_part_nominal (totalOf h w axis) np (by omega)
  intro i hi
  have hi' : i + 1 < np := by omega
  have hiq2 : ((i : ℕ) : ℚ) + 2 ≤ ((np : ℕ) : ℚ) := by
    exact_mod_cast (show i + 2 ≤ np by omega)
  rcases lt_or_ge (((np - 1 : ℕ) : ℤ) * stepOf (totalOf h w axis) np f)
      (totalOf h w axis) with hcase | hcase
  · -- no-break path
    have hnb := no_break_of_lt np _ _ hstep hcase
    obtain ⟨htotnp, hpn1, hr1, hrs⟩ := loop_context_facts h w np f axis hnp2 hf0.le hnb
    have coords := loop_res_getElem h w np f axis hnp2 hf0.le hnb
    obtain ⟨hsi, hei⟩ := coords i (by omega) (by omega)
    obtain ⟨hsi1, hei1⟩ := coords (i + 1) (by omega) hi
    rw [hsi, hei, hsi1, hei1, if_neg (show ¬ i = np - 1 by omega)]
    have hc : ((i + 1 : ℕ) : ℤ) = (i : ℤ) + 1 := by push_cast; ring
    rw [hc]
    have hswap : ((i : ℤ) + 1) * stepOf (totalOf h w axis) np f
        = (i : ℤ) * stepOf (totalOf h w axis) np f + stepOf (totalOf h w axis) np f := by
      ring
    rw [hswap]
    have hnbi1 : (i : ℤ) * stepOf (totalOf h w axis) np f
        + stepOf (totalOf h w axis) np f < totalOf h w axis := by
      have hx := hnb (i + 1) (by omega) hi'
      rw [hc, hswap] at hx
      exact hx
    -- rational bounds on the stride and rounded nominal length
    have hr_lo := sub_half_le_pyRound (part_nominal (totalOf h w axis) np)
    have hr_hi := pyRound_le_add_half (part_nominal (totalOf h w axis) np)
    have hS_loQ : part_nominal (totalOf h w axis) np * (1 - f) - 1/2
        ≤ ((stepOf (totalOf h w axis) np f : ℤ) : ℚ) := by
      have h1 : pyRound (part_nominal (totalOf h w axis) np * (1 - f))
          ≤ stepOf (totalOf h w axis) np f := by
        rw [stepOf_eq_max]
        omega
      have h2 := sub_half_le_pyRound (part_nominal (totalOf h w axis) np * (1 - f))
      have h3 : ((pyRound (part_nominal (totalOf h w axis) np * (1 - f)) : ℤ) : ℚ)
          ≤ ((stepOf (totalOf h w axis) np f : ℤ) : ℚ) := by exact_mod_cast h1
      linarith
    have hS_hiQ : ((stepOf (totalOf h w axis) np f : ℤ) : ℚ)
        ≤ part_nominal (totalOf h w axis) np * (1 - f) + 1/2 := by
      have hd : stepOf (totalOf h w axis) np f = 1 ∨
          stepOf (totalOf h w axis) np f
            = pyRound (part_nominal (totalOf h w axis) np * (1 - f)) := by
        rw [stepOf_eq_max]
        omega
      rcases hd with hd | hd
      · rw [hd]
        push_cast
        nlinarith [hpn1, hf1, mul_le_mul_of_nonneg_left hf1
          (show (0 : ℚ) ≤ part_nominal (totalOf h w axis) np by linarith)]
      · rw [hd]
        exact pyRound_le_add_half _
    have hSq0 : (0 : ℚ) ≤ ((stepOf (totalOf h w axis) np f : ℤ) : ℚ) := by
      exact_mod_cast (by omega : (0 : ℤ) ≤ stepOf (totalOf h w axis) np f)
    -- collapse the min of the two ends and the max of the two starts
    have hif : min (totalOf h w axis)
          ((i : ℤ) * stepOf (totalOf h w axis) np f
            + pyRound (part_nominal (totalOf h w axis) np))
        ≤ (if i + 1 = np - 1 then totalOf h w axis
          else min (totalOf h w axis)
            ((i : ℤ) * stepOf (totalOf h w axis) np f
              + stepOf (totalOf h w axis) np f
              + pyRound (part_nominal (totalOf h w axis) np))) := by
      by_cases hlast : i + 1 = np - 1
      · rw [if_pos hlast]
        omega
      · rw [if_neg hlast]
        omega
    rw [min_eq_left hif,
      max_eq_right (show (i : ℤ) * stepOf (totalOf h w axis) np f
        ≤ (i : ℤ) * stepOf (totalOf h w axis) np f
          + stepOf (totalOf h w axis) np f by omega)]
    refine ⟨by omega, ?_⟩
    rcases le_total (totalOf h w axis)
        ((i : ℤ) * stepOf (totalOf h w axis) np f
          + pyRound (part_nominal (totalOf h w axis) np)) with hmm | hmm
    · rw [min_eq_left hmm, abs_le]
      have hmmQ : ((totalOf h w axis : ℤ) : ℚ)
          ≤ ((i : ℕ) : ℚ) * ((stepOf (totalOf h w axis) np f : ℤ) : ℚ)
            + ((pyRound (part_nominal (totalOf h w axis) np) : ℤ) : ℚ) := by
        exact_mod_cast hmm
      have k1 := mul_le_mul_of_nonneg_right
        (show ((i : ℕ) : ℚ) + 1 ≤ ((np : ℕ) : ℚ) - 1 by linarith) hSq0
      have k2 := mul_le_mul_of_nonneg_left hS_hiQ
        (show (0 : ℚ) ≤ ((np : ℕ) : ℚ) - 1 by linarith)
      have k4 : (0 : ℚ) ≤ part_nominal (totalOf h w axis) np * f * (((np : ℕ) : ℚ) - 2) :=
        mul_nonneg (mul_nonneg (by linarith) hf0.le) (by linarith)
      constructor
      · push_cast
        linarith [k1, k2, k4, hpn1, hq5, hTQ]
      · push_cast
        push_cast at hmmQ
        linarith [hmmQ, hr_hi, hS_loQ]
    · rw [min_eq_right hmm, abs_le]
      constructor
      · push_cast
        linarith [hr_lo, hS_hiQ]
      · push_cast
        linarith [hr_hi, hS_loQ]
  · -- fallback path
    have hfpn := fallback_fpn (totalOf h w axis) np f hnp2 hnp5 htot1 hf0.le hf1 hcase
    have hpn0 : (0 : ℚ) ≤ part_nominal (totalOf h w axis) np := by
      unfold part_nominal
      apply div_nonneg _ (by positivity)
      exact_mod_cast (by omega : (0 : ℤ) ≤ totalOf h w axis)
    have hfpn0 : 0 ≤ f * part_nominal (totalOf h w axis) np := mul_nonneg hf0.le hpn0
    have coords := fallback_res_getElem h w np f axis hnp2 htot1 hcase
    obtain ⟨hsi, hei⟩ := coords i (by omega) (by omega)
    obtain ⟨hsi1, hei1⟩ := coords (i + 1) (by omega) hi
    rw [hsi, hei, hsi1, hei1]
    have hcQ : ((i + 1 : ℕ) : ℚ) = ((i : ℕ) : ℚ) + 1 := by push_cast; ring
    rw [hcQ]
    have hA0 := rho_nonneg (totalOf h w axis) np (by omega) i
    have hAB : pyRound (((i : ℕ) : ℚ) * part_nominal (totalOf h w axis) np)
        ≤ pyRound ((((i : ℕ) : ℚ) + 1) * part_nominal (totalOf h w axis) np) := by
      have hx := rho_mono (totalOf h w axis) np (by omega)
        (show i ≤ i + 1 by omega)
      rw [hcQ] at hx
      exact hx
    have hBT : pyRound ((((i : ℕ) : ℚ) + 1) * part_nominal (totalOf h w axis) np)
        ≤ totalOf h w axis := by
      have hx := rho_le_total (totalOf h w axis) np (by omega) (by omega) (i + 1)
        (by omega)
      rw [hcQ] at hx
      exact hx
    refine ⟨by omega, ?_⟩
    have hlow : (0 : ℤ) ≤ min
        (max (min (totalOf h w axis - 1)
            (pyRound (((i : ℕ) : ℚ) * part_nominal (totalOf h w axis) np)) + 1)
          (pyRound ((((i : ℕ) : ℚ) + 1) * part_nominal (totalOf h w axis) np)))
        (max (min (totalOf h w axis - 1)
            (pyRound ((((i : ℕ) : ℚ) + 1) * part_nominal (totalOf h w axis) np)) + 1)
          (pyRound (((((i : ℕ) : ℚ) + 1) + 1) * part_nominal (totalOf h w axis) np)))
        - max (min (totalOf h w axis - 1)
            (pyRound (((i : ℕ) : ℚ) * part_nominal (totalOf h w axis) np)))
          (min (totalOf h w axis - 1)
            (pyRound ((((i : ℕ) : ℚ) + 1) * part_nominal (totalOf h w axis) np))) := by
      omega
    have hup : min
        (max (min (totalOf h w axis - 1)
            (pyRound (((i : ℕ) : ℚ) * part_nominal (totalOf h w axis) np)) + 1)
          (pyRound ((((i : ℕ) : ℚ) + 1) * part_nominal (totalOf h w axis) np)))
        (max (min (totalOf h w axis - 1)
            (pyRound ((((i : ℕ) : ℚ) + 1) * part_nominal (totalOf h w axis) np)) + 1)
          (pyRound (((((i : ℕ) : ℚ) + 1) + 1) * part_nominal (totalOf h w axis) np)))
        - max (min (totalOf h w axis - 1)
            (pyRound (((i : ℕ) : ℚ) * part_nominal (totalOf h w axis) np)))
          (min (totalOf h w axis - 1)
            (pyRound ((((i : ℕ) : ℚ) + 1) * part_nominal (totalOf h w axis) np)))
        ≤ 1 := by
      omega
    rw [abs_le]
    have hlowQ : (0 : ℚ) ≤ ((min
        (max (min (totalOf h w axis - 1)
            (pyRound (((i : ℕ) : ℚ) * part_nominal (totalOf h w axis) np)) + 1)
          (pyRound ((((i : ℕ) : ℚ) + 1) * part_nominal (totalOf h w axis) np)))
        (max (min (totalOf h w axis - 1)
            (pyRound ((((i : ℕ) : ℚ) + 1) * part_nominal (totalOf h w axis) np)) + 1)
          (pyRound (((((i : ℕ) : ℚ) + 1) + 1) * part_nominal (totalOf h w axis) np)))
        - max (min (totalOf h w axis - 1)
            (pyRound (((i : ℕ) : ℚ) * part_nominal (totalOf h w axis) np)))
          (min (totalOf h w axis - 1)
            (pyRound ((((i : ℕ) : ℚ) + 1) * part_nominal (totalOf h w axis) np))) : ℤ) : ℚ) := by
      exact_mod_cast hlow
    have hupQ : ((min
        (max (min (totalOf h w axis - 1)
            (pyRound (((i : ℕ) : ℚ) * part_nominal (totalOf h w axis) np)) + 1)
          (pyRound ((((i : ℕ) : ℚ) + 1) * part_nominal (totalOf h w axis) np)))
        (max (min (totalOf h w axis - 1)
            (pyRound ((((i : ℕ) : ℚ) + 1) * part_nominal (totalOf h w axis) np)) + 1)
          (pyRound (((((i : ℕ) : ℚ) + 1) + 1) * part_nominal (totalOf h w axis) np)))
        - max (min (totalOf h w axis - 1)
            (pyRound (((i : ℕ) : ℚ) * part_nominal (totalOf h w axis) np)))
          (min (totalOf h w axis - 1)
            (pyRound ((((i : ℕ) : ℚ) + 1) * part_nominal (totalOf h w axis) np))) : ℤ) : ℚ)
        ≤ 1 := by
      exact_mod_cast hup
    constructor
    · linarith
    · linarith

/-- C4 (counterexample): at `h = 1, w = 2, num_parts = 5,
overlap_frac = 1/2, axis = 1` — a valid input with positive overlap
fraction — the consecutive boxes at indices 1 and 2 overlap by `0` pixels
along the split axis, so the overlap is not positive as the claim states. -/
theorem claim_C4_counterexample :
    ((0 : ℚ) < 1/2 ∧ (1/2 : ℚ) ≤ 1/2 ∧ (1 : ℤ) ≤ 1 ∧ (1 : ℤ) ≤ 2 ∧ 2 ≤ 5 ∧ 5 ≤ 5) ∧
    ∃ hb : 1 + 1 < (split_image_with_overlap 1 2 5 (1/2) 1).length,
      ¬ (0 < min (bEnd 1 ((split_image_with_overlap 1 2 5 (1/2) 1)[1]))
            (bEnd 1 ((split_image_with_overlap 1 2 5 (1/2) 1)[1 + 1]))
          - max (bStart 1 ((split_image_with_overlap 1 2 5 (1/2) 1)[1]))
            (bStart 1 ((split_image_with_overlap 1 2 5 (1/2) 1)[1 + 1]))) := by
  have heq : split_image_with_overlap 1 2 5 (1/2) 1
      = [⟨0, 1, 0, 1⟩, ⟨0, 1, 0, 1⟩, ⟨0, 1, 1, 2⟩, ⟨0, 1, 1, 2⟩, ⟨0, 1, 1, 2⟩] := by
    norm_num [split_image_with_overlap, totalOf, part_nominal, stepOf, splitLoop,
      fallbackBoxes, fallbackBox, finalRepair, pyRound, List.range_succ]
  refine ⟨⟨by norm_num, by norm_num, by norm_num, by norm_num, by norm_num, by norm_num⟩,
    ?_, ?_⟩
  · rw [heq]
    norm_num
  · simp only [heq]
    norm_num [bStart, bEnd]

theorem claim_C4_overlap_amended_witness :
    ((1 : ℤ) ≤ 500 ∧ (1 : ℤ) ≤ 1000 ∧ 2 ≤ 3 ∧ 3 ≤ 5 ∧ (0 : ℚ) < 1/5 ∧ (1/5 : ℚ) ≤ 1/2) ∧
    ∀ hi : 0 + 1 < (split_image_with_overlap 500 1000 3 (1/5) 1).length,
      0 ≤ min (bEnd 1 ((split_image_with_overlap 500 1000 3 (1/5) 1)[0]))
            (bEnd 1 ((split_image_with_overlap 500 1000 3 (1/5) 1)[0 + 1]))
          - max (bStart 1 ((split_image_with_overlap 500 1000 3 (1/5) 1)[0]))
            (bStart 1 ((split_image_with_overlap 500 1000 3 (1/5) 1)[0 + 1])) ∧
      |((min (bEnd 1 ((split_image_with_overlap 500 1000 3 (1/5) 1)[0]))
            (bEnd 1 ((split_image_with_overlap 500 1000 3 (1/5) 1)[0 + 1]))
          - max (bStart 1 ((split_image_with_overlap 500 1000 3 (1/5) 1)[0]))
            (bStart 1 ((split_image_with_overlap 500 1000 3 (1/5) 1)[0 + 1])) : ℤ) : ℚ)
          - (1/5) * part_nominal (totalOf 500 1000 1) 3| ≤ 1 :=
  ⟨⟨by norm_num, by norm_num, by norm_num, by norm_num, by norm_num, by norm_num⟩,
    fun hi => claim_C4_overlap_amended 500 1000 3 (1/5) 1 (by norm_num) (by norm_num)
      (by norm_num) (by norm_num) (by norm_num) (by norm_num) (Or.inr rfl) 0 hi⟩

/-- C5: whenever the overlap-stride loop produced fewer than `num_parts`
boxes they are discarded and the result is the repaired evenly spaced
rebuild, whose box `i` spans
`[round(i * total/num_parts), round((i+1) * total/num_parts))` with no
overlap between consecutive rebuilt boxes; in particular for
`total = 2, num_parts = 5, overlap_frac = 1/2` the final result is exactly
five non-empty one-pixel-wide boxes inside `[0, 2)`. -/
theorem claim_C5_fallback :
    (∀ (h w : ℤ) (np : ℕ) (f : ℚ) (axis : ℤ),
      (splitLoop h w (totalOf h w axis) (part_nominal (totalOf h w axis) np)
          (stepOf (totalOf h w axis) np f) np axis np 0 0).length < np →
      split_image_with_overlap h w np f axis
          = (List.range np).map (fun i => finalRepair h w
              (fallbackBox h w (totalOf h w axis) np axis i)) ∧
        (∀ i : ℕ,
          bStart axis (fallbackBox h w (totalOf h w axis) np axis i)
              = pyRound ((i : ℚ) * part_nominal (totalOf h w axis) np) ∧
          bEnd axis (fallbackBox h w (totalOf h w axis) np axis i)
              = pyRound (((i : ℚ) + 1) * part_nominal (totalOf h w axis) np)) ∧
        (∀ i : ℕ,
          bEnd axis (fallbackBox h w (totalOf h w axis) np axis i)
            = bStart axis (fallbackBox h w (totalOf h w axis) np axis (i + 1)))) ∧
    ((split_image_with_overlap 1 2 5 (1/2) 1).length = 5 ∧
      split_image_with_overlap 1 2 5 (1/2) 1
        = [⟨0, 1, 0, 1⟩, ⟨0, 1, 0, 1⟩, ⟨0, 1, 1, 2⟩, ⟨0, 1, 1, 2⟩, ⟨0, 1, 1, 2⟩] ∧
      ∀ b ∈ split_image_with_overlap 1 2 5 (1/2) 1,
        b.x1 - b.x0 = 1 ∧ 0 ≤ b.x0 ∧ b.x1 ≤ 2) := by
  constructor
  · intro h w np f axis hshort
    refine ⟨?_, ?_, ?_⟩
    · simp only [split_image_with_overlap]
      rw [if_pos hshort]
      simp only [fallbackBoxes, List.map_map]
      rfl
    · intro i
      exact ⟨bStart_fallbackBox h w (totalOf h w axis) np axis i,
        bEnd_fallbackBox h w (totalOf h w axis) np axis i⟩
    · intro i
      rw [bEnd_fallbackBox, bStart_fallbackBox]
      push_cast
      ring_nf
  · have heq : split_image_with_overlap 1 2 5 (1/2) 1
        = [⟨0, 1, 0, 1⟩, ⟨0, 1, 0, 1⟩, ⟨0, 1, 1, 2⟩, ⟨0, 1, 1, 2⟩, ⟨0, 1, 1, 2⟩] := by
      norm_num [split_image_with_overlap, totalOf, part_nominal, stepOf, splitLoop,
        fallbackBoxes, fallbackBox, finalRepair, pyRound, List.range_succ]
    refine ⟨by rw [heq]; rfl, heq, ?_⟩
    intro b hb
    rw [heq] at hb
    simp only [List.mem_cons, List.not_mem_nil, or_false] at hb
    rcases hb with rfl | rfl | rfl | rfl | rfl <;> norm_num

theorem claim_C5_fallback_witness :
    (splitLoop 1 2 (totalOf 1 2 1) (part_nominal (totalOf 1 2 1) 5)
        (stepOf (totalOf 1 2 1) 5 (1/2)) 5 1 5 0 0).length < 5 ∧
    (split_image_with_overlap 1 2 5 (1/2) 1
        = (List.range 5).map (fun i => finalRepair 1 2 (fallbackBox 1 2 (totalOf 1 2 1) 5 1 i)) ∧
      (∀ i : ℕ,
        bStart 1 (fallbackBox 1 2 (totalOf 1 2 1) 5 1 i)
            = pyRound ((i : ℚ) * part_nominal (totalOf 1 2 1) 5) ∧
        bEnd 1 (fallbackBox 1 2 (totalOf 1 2 1) 5 1 i)
            = pyRound (((i : ℚ) + 1) * part_nominal (totalOf 1 2 1) 5)) ∧
      (∀ i : ℕ,
        bEnd 1 (fallbackBox 1 2 (totalOf 1 2 1) 5 1 i)
          = bStart 1 (fallbackBox 1 2 (totalOf 1 2 1) 5 1 (i + 1)))) :=
  ⟨by norm_num [splitLoop, totalOf, part_nominal, stepOf, pyRound],
    claim_C5_fallback.1 1 2 5 (1/2) 1
      (by norm_num [splitLoop, totalOf, part_nominal, stepOf, pyRound])⟩

/-- C10: even when `1 ≤ total < num_parts`, the partitioner still returns
exactly `num_parts` valid boxes, and then two of them necessarily overlap
along the split axis (they share a pixel), so distinctness fails. -/
theorem claim_C10_small_total (h w : ℤ) (np : ℕ) (f : ℚ) (axis : ℤ)
    (hh : 1 ≤ h) (hw : 1 ≤ w) (hnp2 : 2 ≤ np) (hnp5 : np ≤ 5)
    (hf0 : 0 ≤ f) (hf1 : f ≤ 1/2) (hax : axis = 0 ∨ axis = 1)
    (htot : totalOf h w axis < (np : ℤ)) :
    (split_image_with_overlap h w np f axis).length = np ∧
    (∀ b ∈ split_image_with_overlap h w np f axis,
      0 ≤ b.y0 ∧ b.y0 < b.y1 ∧ b.y1 ≤ h ∧ 0 ≤ b.x0 ∧ b.x0 < b.x1 ∧ b.x1 ≤ w) ∧
    ∃ i j : ℕ, i ≠ j ∧
      ∃ (hi : i < (split_image_with_overlap h w np f axis).length)
        (hj : j < (split_image_with_overlap h w np f axis).length), ∃ z : ℤ,
        bStart axis ((split_image_with_overlap h w np f axis)[i]) ≤ z ∧
        z < bEnd axis ((split_image_with_overlap h w np f axis)[i]) ∧
        bStart axis ((split_image_with_overlap h w np f axis)[j]) ≤ z ∧
        z < bEnd axis ((split_image_with_overlap h w np f axis)[j]) := by
  have htot1 : 1 ≤ totalOf h w axis := by
    unfold totalOf
    split_ifs <;> omega
  have hlen := split_image_length h w np f axis
  have hvalid : ∀ b ∈ split_image_with_overlap h w np f axis,
      0 ≤ b.y0 ∧ b.y0 < b.y1 ∧ b.y1 ≤ h ∧ 0 ≤ b.x0 ∧ b.x0 < b.x1 ∧ b.x1 ≤ w := by
    intro b hb
    simp only [split_image_with_overlap, List.mem_map] at hb
    obtain ⟨b', -, rfl⟩ := hb
    exact finalRepair_valid h w hh hw b'
  have hbounds : ∀ b ∈ split_image_with_overlap h w np f axis,
      0 ≤ bStart axis b ∧ bStart axis b ≤ totalOf h w axis - 1 ∧
      bStart axis b < bEnd axis b := by
    intro b hb
    simp only [split_image_with_overlap, List.mem_map] at hb
    obtain ⟨b', -, rfl⟩ := hb
    obtain ⟨h1, h2, h3, -⟩ := finalRepair_split_bounds h w axis b' htot1
    exact ⟨h1, h2, h3⟩
  refine ⟨hlen, hvalid, ?_⟩
  have hcard : (Finset.Icc (0 : ℤ) (totalOf h w axis - 1)).card
      < (Finset.univ : Finset (Fin np)).card := by
    rw [Int.card_Icc, Finset.card_univ, Fintype.card_fin]
    omega
  have hmaps : ∀ k : Fin np, k ∈ (Finset.univ : Finset (Fin np)) →
      bStart axis ((split_image_with_overlap h w np f axis).getD k.val (Box.mk 0 0 0 0))
        ∈ Finset.Icc (0 : ℤ) (totalOf h w axis - 1) := by
    intro k _
    have hk : k.val < (split_image_with_overlap h w np f axis).length := by
      rw [hlen]; exact k.isLt
    rw [List.getD_eq_getElem _ _ hk]
    have hmem : (split_image_with_overlap h w np f axis)[k.val]
        ∈ split_image_with_overlap h w np f axis := List.getElem_mem hk
    obtain ⟨h1, h2, -⟩ := hbounds _ hmem
    simp only [Finset.mem_Icc]
    exact ⟨h1, h2⟩
  obtain ⟨a, -, b, -, hab, hfeq⟩ :=
    Finset.exists_ne_map_eq_of_card_lt_of_maps_to hcard hmaps
  have ha : a.val < (split_image_with_overlap h w np f axis).length := by
    rw [hlen]; exact a.isLt
  have hb : b.val < (split_image_with_overlap h w np f axis).length := by
    rw [hlen]; exact b.isLt
  rw [List.getD_eq_getElem _ _ ha, List.getD_eq_getElem _ _ hb] at hfeq
  refine ⟨a.val, b.val, fun hv => hab (Fin.val_injective hv), ha, hb,
    bStart axis ((split_image_with_overlap h w np f axis)[a.val]), ?_, ?_, ?_, ?_⟩
  · exact le_refl _
  · exact (hbounds _ (List.getElem_mem ha)).2.2
  · rw [← hfeq]
  · rw [hfeq]
    exact (hbounds _ (List.getElem_mem hb)).2.2

theorem claim_C10_small_total_witness :
    ((1 : ℤ) ≤ 1 ∧ (1 : ℤ) ≤ 2 ∧ 2 ≤ 5 ∧ 5 ≤ 5 ∧ (0 : ℚ) ≤ 1/5 ∧ (1/5 : ℚ) ≤ 1/2 ∧
      totalOf 1 2 1 < (5 : ℤ)) ∧
    ((split_image_with_overlap 1 2 5 (1/5) 1).length = 5 ∧
      (∀ b ∈ split_image_with_overlap 1 2 5 (1/5) 1,
        0 ≤ b.y0 ∧ b.y0 < b.y1 ∧ b.y1 ≤ 1 ∧ 0 ≤ b.x0 ∧ b.x0 < b.x1 ∧ b.x1 ≤ 2) ∧
      ∃ i j : ℕ, i ≠ j ∧
        ∃ (hi : i < (split_image_with_overlap 1 2 5 (1/5) 1).length)
          (hj : j < (split_image_with_overlap 1 2 5 (1/5) 1).length), ∃ z : ℤ,
          bStart 1 ((split_image_with_overlap 1 2 5 (1/5) 1)[i]) ≤ z ∧
          z < bEnd 1 ((split_image_with_overlap 1 2 5 (1/5) 1)[i]) ∧
          bStart 1 ((split_image_with_overlap 1 2 5 (1/5) 1)[j]) ≤ z ∧
          z < bEnd 1 ((split_image_with_overlap 1 2 5 (1/5) 1)[j])) :=
  ⟨⟨by norm_num, by norm_num, by norm_num, by norm_num, by norm_num, by norm_num,
      by norm_num [totalOf]⟩,
    claim_C10_small_total 1 2 5 (1/5) 1 (by norm_num) (by norm_num) (by norm_num)
      (by norm_num) (by norm_num) (by norm_num) (Or.inr rfl) (by norm_num [totalOf])⟩

theorem claim_C9_orthogonal_span_witness :
    ((1 : ℤ) ≤ 500 ∧ (1 : ℤ) ≤ 1000 ∧ 2 ≤ 3 ∧ 3 ≤ 5 ∧ (0 : ℚ) ≤ 1/5 ∧ (1/5 : ℚ) ≤ 1/2 ∧
      (1 : ℤ) = 1) ∧
    (∀ b ∈ split_image_with_overlap 500 1000 3 (1/5) 1, b.y0 = 0 ∧ b.y1 = 500) :=
  ⟨⟨by norm_num, by norm_num, by norm_num, by norm_num, by norm_num, by norm_num, rfl⟩,
    (claim_C9_orthogonal_span 500 1000 3 (1/5) 1 (by norm_num) (by norm_num) (by norm_num)
      (by norm_num) (by norm_num) (by norm_num)).1 rfl⟩

end SIFT
